import Mathlib

/-!
Verification of the filescraper filter-and-copy pipeline (Shahondin1624/filescraper-rs).

The development shallowly embeds the Rust sources:
  * `src/args.rs`  — filter model, path mapper, CLI-to-configuration conversion;
  * `src/lib.rs`   — traversal and the parallel copy engine (library variant);
  * `src/main.rs`  — the binary's own copy engine (a second, diverging variant).

Modelling conventions:
  * Rust `&str`/`String` values are Lean `String`s; the char-level helpers work on
    `List Char` (`String.toList`).
  * Rust `Path`/`PathBuf` values are represented by their backing string where the
    code only manipulates strings, and by their component list (`List String`,
    with a leading "/" marker component for absolute paths) where the code uses
    component-wise operations (`strip_prefix`, `join`, `parent`).  `MAIN_SEPARATOR`
    is '/' (the Unix separator; the program targets Linux, cf. `is_colorful_supported`).
  * A `HashSet<String>` built from a `Vec<String>` is modelled as the underlying
    list; only membership is ever queried, for which the two agree.
  * Filesystem facts the code queries (`is_dir`, success of `create_dir_all` and
    `fs::copy`) are oracles: an explicit `Bool` argument and an `Fs` record of
    success predicates.
  * A Rust panic (the `panic!` branch of `transform_source_to_target_path` and the
    `unwrap()` calls in the copy loops) is modelled as `none`; rayon propagates a
    worker panic out of `for_each`, so a `none` step makes the whole batch `none`.
  * Paths whose byte content is not valid unicode (where `to_str` returns `None`)
    are modelled by the `RustPath.nonUtf8` constructor.
-/

/-! ## Character-level path splitting

`str::split(MAIN_SEPARATOR)` from `path_contains_folder` (args.rs:197-205),
embedded on `List Char`. -/

/-- Split a character list at every occurrence of `sep`.  Mirrors Rust's
`str::split`, which yields the (possibly empty) chunks between separators. -/
def splitSep (sep : Char) : List Char → List (List Char)
  | [] => [[]]
  | c :: cs =>
    if c = sep then [] :: splitSep sep cs
    else
      match splitSep sep cs with
      | [] => [[c]]
      | s :: ss => (c :: s) :: ss

/-! ## The path model -/

/-- A filesystem path as the code observes it.  On Unix a path is a byte
string; `to_str` succeeds exactly when the bytes are valid UTF-8.  A path
that is not valid UTF-8 may still have a final component that is, so the
`nonUtf8` constructor records the result of `file_name().and_then(to_str)`
abstractly. -/
inductive RustPath
  | utf8 (s : String)
  | nonUtf8 (fname : Option String)
deriving DecidableEq

/-- `Path::to_str` of the whole path. -/
def RustPath.toStr : RustPath → Option String
  | .utf8 s => some s
  | .nonUtf8 _ => none

/-- The components of a path string, following Rust's `Path::components`
normalization: empty segments (from repeated or trailing separators) are
dropped, `.` segments are dropped except at the start of a relative path,
and an absolute path starts with a "/" root marker component. -/
def rustComponents (s : String) : List String :=
  let segs := ((splitSep '/' s.toList).filter (fun seg => !seg.isEmpty)).map String.mk
  if s.toList.head? = some '/' then
    "/" :: segs.filter (fun c => c != ".")
  else
    match segs with
    | "." :: rest => "." :: rest.filter (fun c => c != ".")
    | l => l.filter (fun c => c != ".")

/-- `Path::file_name().and_then(to_str)` for a valid-unicode path: the last
component, unless the path is empty, is the root, or terminates in `..`
(or in the bare `.` path, whose only component is the current-dir marker). -/
def rustFileName (s : String) : Option String :=
  let comps := (splitSep '/' s.toList).filter (fun seg => !seg.isEmpty && seg != ['.'])
  match comps.getLast? with
  | none => none
  | some seg => if seg = ['.', '.'] then none else some (String.mk seg)

/-- `file_name().and_then(to_str)` over the path model. -/
def RustPath.fileNameStr : RustPath → Option String
  | .utf8 s => rustFileName s
  | .nonUtf8 fname => fname

/-- `Path::parent` on a component list: drop the final component; `None`
for an empty path and for the bare root. -/
def parentComponents : List String → Option (List String)
  | [] => none
  | ["/"] => none
  | l => some l.dropLast

/-- `Path::strip_prefix`: succeeds iff the root's components are a prefix of
the path's components, returning the remaining (relative) components. -/
def stripComponents (root p : List String) : Option (List String) :=
  if root.isPrefixOf p then some (p.drop root.length) else none

/-- Render a component list back to a path string, the way `PathBuf` prints
after `join`ing relative components onto a root. -/
def renderPath : List String → String
  | "/" :: rest => "/" ++ String.intercalate "/" rest
  | l => String.intercalate "/" l

/-! ## File-extension filter (args.rs:141-170) -/

/-- The characters after the last '.' of a component (used once a dot is
known to occur past the first character). -/
def afterLastDot (l : List Char) : List Char :=
  (l.reverse.takeWhile (fun c => c != '.')).reverse

/-- `file_extension` (args.rs:165-170): `Path::new(file_name).extension()`,
re-prefixed with "." via `format!(".{}", ..)`, and `""` when there is no
extension.  Rust's `extension` first takes the path's `file_name` and then
returns the portion after the last '.' of that component, provided that
dot is not the component's first character (so `.gitignore` has no
extension). -/
def file_extension (file_name : String) : String :=
  match rustFileName file_name with
  | none => ""
  | some fn =>
    match fn.toList with
    | [] => ""
    | _ :: rest =>
      if rest.contains '.' then "." ++ String.mk (afterLastDot rest) else ""

/-- `FileExtensionFilterMode` (args.rs:141-145).  `Ignored`/`Targeted` hold
the configured extension set (modelled as the underlying list). -/
inductive FileExtensionFilterMode
  | Ignored (exts : List String)
  | Targeted (exts : List String)
deriving DecidableEq

/-- `FileExtensionFilter::should_copy` (args.rs:151-163): compute the file's
extension, then test set membership — negated for `Ignored`. -/
def FileExtensionFilterMode.should_copy : FileExtensionFilterMode → String → Bool
  | .Ignored ignored, file_name => !(ignored.contains (file_extension file_name))
  | .Targeted targeted, file_name => targeted.contains (file_extension file_name)

/-! ## Folder filter (args.rs:173-205) -/

/-- The non-empty '/'-separated segments of a path string
(args.rs:201: `split(MAIN_SEPARATOR).filter(|s| !s.is_empty())`). -/
def pathSegments (l : List Char) : List (List Char) :=
  (splitSep '/' l).filter (fun seg => !seg.isEmpty)

/-- Membership of `folder` among the non-empty segments of an already
stringified path (the `Some` branch of `path_contains_folder`). -/
def path_contains_folder_core (l : List Char) (folder : String) : Bool :=
  (pathSegments l).contains folder.toList

/-- `path_contains_folder` (args.rs:197-205): `to_str` failure yields
`false`; otherwise test whether any non-empty segment equals `folder`. -/
def path_contains_folder (p : RustPath) (folder : String) : Bool :=
  match p.toStr with
  | none => false
  | some s => path_contains_folder_core s.toList folder

/-- `FolderFilterMode` (args.rs:178-182). -/
inductive FolderFilterMode
  | Ignored (names : List String)
  | Targeted (names : List String)
deriving DecidableEq

/-- `FolderFilter::should_copy` (args.rs:184-195): does any configured name
occur as a segment of the path — negated for `Ignored`. -/
def FolderFilterMode.should_copy : FolderFilterMode → RustPath → Bool
  | .Ignored ignored, p => !(ignored.any (fun ign => path_contains_folder p ign))
  | .Targeted targeted, p => targeted.any (fun tar => path_contains_folder p tar)

/-! ## Configuration (args.rs:41-121) -/

/-- `Arguments` (args.rs:96-103).  The `verbose` field only configures
logging and is omitted. -/
structure Arguments where
  source_root_file_path : String
  target_root_file_path : String
  file_extensions : FileExtensionFilterMode
  folders : FolderFilterMode
  follow_links : Bool
deriving DecidableEq

/-- `Arguments::should_copy` (args.rs:106-116).  Whether the path denotes a
directory is a filesystem fact, passed as the `isDir` oracle.  For a
directory the folder filter is consulted on the whole path; for anything
else the extension filter is consulted on the file name, defaulting to
`false` when `file_name().and_then(to_str)` is `None` (the
`.or_else(|| Some(false)).unwrap()` chain). -/
def Arguments.should_copy (args : Arguments) (isDir : Bool) (p : RustPath) : Bool :=
  if isDir then
    args.folders.should_copy p
  else
    match p.fileNameStr with
    | some file_name => args.file_extensions.should_copy file_name
    | none => false

/-- `transform_source_to_target_path` (args.rs:123-134): strip the source
root off the source path and join the remainder onto the target root.
The `Err` branch of `strip_prefix` runs `panic!`, modelled as `none`. -/
def transform_source_to_target_path
    (source_root_file_path target_root_file_path : String)
    (source_path : String) : Option (List String) :=
  match stripComponents (rustComponents source_root_file_path)
      (rustComponents source_path) with
  | some stripped => some (rustComponents target_root_file_path ++ stripped)
  | none => none

/-! ## CLI conversion (args.rs:9-94) -/

/-- `TargetMode` (args.rs:9-13). -/
inductive TargetMode
  | Ignore
  | Target
deriving DecidableEq

/-- `OptionalHandling` (args.rs:15-19). -/
structure OptionalHandling where
  target : TargetMode
  values : List String
deriving DecidableEq

/-- `CliArgs` (args.rs:41-60), with the two optional filter specifications.
The `verbose` field is omitted as for `Arguments`. -/
structure CliArgs where
  source_root_file_path : String
  target_root_file_path : String
  file_extensions : Option OptionalHandling
  folders : Option OptionalHandling
  follow_links : Bool
deriving DecidableEq

/-- The per-token extension normalization inside `CliArgs::convert`
(args.rs:68): `if s.starts_with('.') then s.clone() else format!(".{}", s)`. -/
def normalizeExtension (s : String) : String :=
  if s.toList.head? = some '.' then s else "." ++ s

/-- `CliArgs::convert` (args.rs:62-94): absent filters become `Ignored`
with an empty set; extension tokens are normalized; folder names are
taken as given. -/
def CliArgs.convert (cli : CliArgs) : Arguments :=
  let fileExts :=
    match cli.file_extensions with
    | none => FileExtensionFilterMode.Ignored []
    | some inner =>
      let extensions := inner.values.map normalizeExtension
      match inner.target with
      | .Ignore => FileExtensionFilterMode.Ignored extensions
      | .Target => FileExtensionFilterMode.Targeted extensions
  let foldersMode :=
    match cli.folders with
    | none => FolderFilterMode.Ignored []
    | some inner =>
      match inner.target with
      | .Ignore => FolderFilterMode.Ignored inner.values
      | .Target => FolderFilterMode.Targeted inner.values
  { source_root_file_path := cli.source_root_file_path
    target_root_file_path := cli.target_root_file_path
    file_extensions := fileExts
    folders := foldersMode
    follow_links := cli.follow_links }

/-! ## The copy engines (lib.rs:41-60 and main.rs:49-67) -/

/-- The filesystem oracle: whether `create_dir_all` succeeds on a directory
(given by components) and whether `fs::copy` succeeds for a given source
path. -/
structure Fs where
  mkdirOk : List String → Bool
  copyOk : String → Bool

/-- One iteration of the `for_each` body of `copy` in lib.rs:46-57:
map the source path (a `panic!` inside the mapping aborts), take the
target's parent (`unwrap`), create it (`unwrap`), then copy, logging
success or failure.  `none` models a panic; `some b` a completed
iteration whose `fs::copy` returned `Ok` iff `b`. -/
def copyStepLib (args : Arguments) (fs : Fs) (source_path : String) : Option Bool :=
  match transform_source_to_target_path args.source_root_file_path
      args.target_root_file_path source_path with
  | none => none
  | some target_path =>
    match parentComponents target_path with
    | none => none
    | some target_parent =>
      if fs.mkdirOk target_parent then some (fs.copyOk source_path) else none

/-- One iteration of the `for_each` body of `copy` in main.rs:54-65: this
variant takes the SOURCE path's parent and calls `create_dir_all` on it,
then maps the path and copies; the target's parent is never created. -/
def copyStepMain (args : Arguments) (fs : Fs) (source_path : String) : Option Bool :=
  match parentComponents (rustComponents source_path) with
  | none => none
  | some source_parent =>
    if fs.mkdirOk source_parent then
      match transform_source_to_target_path args.source_root_file_path
          args.target_root_file_path source_path with
      | none => none
      | some _ => some (fs.copyOk source_path)
    else none

/-- The directory `create_dir_all` is invoked on by main.rs's copy loop
(main.rs:57-58): the parent of the source path. -/
def ensuredDirMain (source_path : String) : Option (List String) :=
  parentComponents (rustComponents source_path)

/-- The directory `create_dir_all` is invoked on by lib.rs's copy loop
(lib.rs:50-51): the parent of the mapped target path. -/
def ensuredDirLib (args : Arguments) (source_path : String) : Option (List String) :=
  (transform_source_to_target_path args.source_root_file_path
      args.target_root_file_path source_path).bind parentComponents

/-- The copy batch of lib.rs:41-60: a `RelaxedCounter` starts at 0 and each
completed iteration increments it once (`counter.inc()`, lib.rs:56),
whether the `fs::copy` succeeded or failed.  The parallel `for_each` is
modelled as a fold: the counter's final value is the number of completed
iterations, which is independent of scheduling order, and any panicking
iteration propagates out of `for_each` and aborts the batch (`none`). -/
def copyBatch (args : Arguments) (fs : Fs) : List String → Option Nat
  | [] => some 0
  | f :: rest =>
    match copyStepLib args fs f with
    | none => none
    | some _ => (copyBatch args fs rest).map (· + 1)

/-! ## Spec-side definitions (for comparison against the embedded code) -/

/-- Modelled from the spec wording of claim C3: "the substring after the
last '.' in the file name, re-prefixed with a single leading '.'", and ""
when the name contains no '.'.  This is the claimed extension function,
to be compared with the code's `file_extension`. -/
def claimedExtension (file_name : String) : String :=
  if file_name.toList.contains '.' then
    "." ++ String.mk (afterLastDot file_name.toList)
  else ""


/-! ## Shared concrete instances used by several witnesses -/

/-- A minimal configuration rooted at "src", targeting "tgt", with no
filters. -/
def argsSrcTgt : Arguments :=
  { source_root_file_path := "src"
    target_root_file_path := "tgt"
    file_extensions := .Ignored []
    folders := .Ignored []
    follow_links := false }

/-- A filesystem on which directory creation always succeeds and every
`fs::copy` succeeds. -/
def fsAllOk : Fs := ⟨fun _ => true, fun _ => true⟩

/-- A filesystem on which directory creation succeeds but every `fs::copy`
fails (e.g. unreadable sources). -/
def fsCopyFails : Fs := ⟨fun _ => true, fun _ => false⟩

/-! ## Helper lemmas -/

lemma splitSep_ne_nil (sep : Char) (l : List Char) : splitSep sep l ≠ [] := by
  cases l with
  | nil => simp [splitSep]
  | cons c cs =>
    simp only [splitSep]
    split
    · simp
    · split <;> simp

lemma splitSep_cons_self (sep : Char) (cs : List Char) :
    splitSep sep (sep :: cs) = [] :: splitSep sep cs := by
  simp [splitSep]

lemma splitSep_cons_ne (sep c : Char) (cs : List Char) (h : c ≠ sep) :
    splitSep sep (c :: cs) =
      match splitSep sep cs with
      | [] => [[c]]
      | s :: ss => (c :: s) :: ss := by
  simp [splitSep, h]

/-- Splitting a concatenation whose two halves are joined by a separator
splits each half independently. -/
lemma splitSep_append (sep : Char) (a b : List Char) :
    splitSep sep (a ++ sep :: b) = splitSep sep a ++ splitSep sep b := by
  induction a with
  | nil => simp [splitSep_cons_self, splitSep]
  | cons c a' ih =>
    by_cases h : c = sep
    · subst h
      rw [List.cons_append, splitSep_cons_self, splitSep_cons_self, ih, List.cons_append]
    · obtain ⟨s, ss, hs⟩ := List.exists_cons_of_ne_nil (splitSep_ne_nil sep a')
      rw [List.cons_append, splitSep_cons_ne sep c _ h, splitSep_cons_ne sep c _ h, ih, hs]
      simp [List.cons_append]

/-- A list containing no separator splits into the single chunk that is
the whole list. -/
lemma splitSep_eq_single (sep : Char) (l : List Char) (h : sep ∉ l) :
    splitSep sep l = [l] := by
  induction l with
  | nil => rfl
  | cons c cs ih =>
    have hc : c ≠ sep := fun he => h (he ▸ List.mem_cons_self c cs)
    have hcs : sep ∉ cs := fun hm => h (List.mem_cons_of_mem c hm)
    rw [splitSep_cons_ne sep c cs hc, ih hcs]

/-- `rustFileName` on a separator-free string: the name itself, except for
the empty, current-dir and parent-dir names. -/
lemma rustFileName_nosep (name : String) (h : '/' ∉ name.data) :
    rustFileName name =
      if name.data = [] then none
      else if name.data = ['.'] then none
      else if name.data = ['.', '.'] then none
      else some name := by
  unfold rustFileName
  rw [show name.toList = name.data from rfl, splitSep_eq_single '/' name.data h]
  by_cases h1 : name.data = []
  · simp [h1, List.filter]
  by_cases h2 : name.data = ['.']
  · simp [h2, List.filter]
  have hne : name.data.isEmpty = false := by
    cases hd : name.data with
    | nil => exact absurd hd h1
    | cons a as => rfl
  have hbne : (name.data != ['.']) = true := by simp [bne, h2]
  by_cases h3 : name.data = ['.', '.']
  · rw [h3, if_neg (by decide : ¬(['.', '.'] : List Char) = []),
      if_neg (by decide : ¬(['.', '.'] : List Char) = ['.']), if_pos rfl]
    decide
  · simp [List.filter, hne, hbne, h1, h2, h3]

/-- `file_extension` on a separator-free file name, reduced to a case split
on the name's characters. -/
lemma file_extension_nosep (name : String) (h : '/' ∉ name.data) :
    file_extension name =
      if name.data = ['.', '.'] then ""
      else
        match name.data with
        | [] => ""
        | _ :: rest =>
          if rest.contains '.' then "." ++ String.mk (afterLastDot rest) else "" := by
  unfold file_extension
  rw [rustFileName_nosep name h]
  by_cases h1 : name.data = []
  · simp [h1]
  by_cases h2 : name.data = ['.']
  · rw [if_neg h1, if_pos h2, h2]; decide
  by_cases h3 : name.data = ['.', '.']
  · simp [h1, h2, h3]
  · rw [if_neg h1, if_neg h2, if_neg h3, if_neg h3]; rfl

/-! ## Claims -/

/-- C1, counterexample.  The claim says a `PathMappingError` is a per-item
failure: logged, the item skipped, and the batch continues.  In the code the
`Err` branch of `strip_prefix` runs `panic!` (args.rs:130-132), and the panic
propagates out of rayon's `for_each`, aborting the whole batch: with a batch
holding one unmappable candidate and one perfectly fine candidate, the batch
ends in a panic (`none`) instead of completing with the good item copied. -/
theorem c1_mapping_failure_is_not_local :
    transform_source_to_target_path "src" "tgt" "elsewhere/x.txt" = none ∧
    copyBatch argsSrcTgt fsAllOk ["elsewhere/x.txt", "src/ok.txt"] = none ∧
    copyBatch argsSrcTgt fsAllOk ["src/ok.txt"] = some 1 := by
  refine ⟨by decide, by decide, by decide⟩

/-- C1, amended.  When mapping a candidate's source path fails because the
path is not rooted under the configured source root, the code panics
(args.rs:131), which aborts the whole batch: whenever any candidate of the
batch fails to map, `copyBatch` ends in a panic (`none`) — the item is not
skipped and the batch does not continue to a normal completion. -/
theorem c1_mapping_failure_aborts_batch
    (args : Arguments) (fs : Fs) (files : List String) (f : String)
    (hmem : f ∈ files)
    (hfail : transform_source_to_target_path args.source_root_file_path
      args.target_root_file_path f = none) :
    copyBatch args fs files = none := by
  induction files with
  | nil => cases hmem
  | cons g rest ih =>
    rcases List.mem_cons.mp hmem with h | h
    · subst h
      simp [copyBatch, copyStepLib, hfail]
    · cases hstep : copyStepLib args fs g with
      | none => simp [copyBatch, hstep]
      | some b => simp [copyBatch, hstep, ih h]

/-- C1, witness for the amended theorem at a concrete batch. -/
theorem c1_witness :
    copyBatch argsSrcTgt fsAllOk ["src/ok.txt", "elsewhere/x.txt"] = none :=
  c1_mapping_failure_aborts_batch argsSrcTgt fsAllOk _ "elsewhere/x.txt"
    (by decide) (by decide)

/-- C2.  The claim (and lib.rs:50-51) require that, before the copy, the
parent chain of the candidate's TARGET path is created.  The binary's own
copy loop (main.rs:57-58, the one `main` actually calls) instead takes the
SOURCE path's parent and calls `create_dir_all` on that, never creating the
target parent: on the candidate "src/sub/f.txt" under source root "src" and
target root "tgt", main.rs ensures "src/sub" while the target parent is
"tgt/sub". -/
theorem c2_main_copy_creates_source_parent_not_target_parent :
    ensuredDirMain "src/sub/f.txt" = some ["src", "sub"] ∧
    ensuredDirLib argsSrcTgt "src/sub/f.txt" = some ["tgt", "sub"] ∧
    ensuredDirMain "src/sub/f.txt" ≠ ensuredDirLib argsSrcTgt "src/sub/f.txt" := by
  refine ⟨by decide, by decide, by decide⟩

/-- C3, counterexample.  The claim computes the extension as the substring
after the last '.' re-prefixed with '.', non-empty for EVERY name containing
a '.' including names that begin with '.'.  For ".gitignore" that reading
gives ".gitignore" (so an `Including {".gitignore"}` filter should copy it
and an `Excluding {".gitignore"}` filter should not) — but the code uses
Rust's `Path::extension`, which gives `None` for a name whose only '.' is
its first character, so `file_extension ".gitignore" = ""` and both filters
decide the opposite way. -/
theorem c3_counterexample :
    claimedExtension ".gitignore" = ".gitignore" ∧
    file_extension ".gitignore" = "" ∧
    FileExtensionFilterMode.should_copy (.Targeted [".gitignore"]) ".gitignore" = false ∧
    FileExtensionFilterMode.should_copy (.Ignored [".gitignore"]) ".gitignore" = true := by
  refine ⟨by decide, by decide, by decide, by decide⟩

/-- C3, amended.  With an `Excluding(S)` extension filter `should_copy(p)` is
true iff `extension(p) ∉ S`, and with `Including(S)` iff `extension(p) ∈ S`,
where `extension(p)` is "" when the file name contains no '.' AND ALSO when
the only '.' of the file name is its leading character (hidden files such as
".gitignore" have extension ""); when the name has a '.' past its first
character (and is not the special name ".."), the extension is the substring
after the last such '.' re-prefixed with a single leading '.'. -/
theorem c3_extension_filter_semantics (S : List String) (name : String) :
    (FileExtensionFilterMode.should_copy (.Ignored S) name = true ↔
      file_extension name ∉ S) ∧
    (FileExtensionFilterMode.should_copy (.Targeted S) name = true ↔
      file_extension name ∈ S) ∧
    ('/' ∉ name.toList → '.' ∉ name.toList → file_extension name = "") ∧
    (∀ rest : List Char, '/' ∉ name.toList → name.toList = '.' :: rest →
      '.' ∉ rest → file_extension name = "") ∧
    (∀ c rest, '/' ∉ name.toList → name.toList = c :: rest → '.' ∈ rest →
      name.toList ≠ ['.', '.'] →
      file_extension name = "." ++ String.mk (afterLastDot rest)) := by
  refine ⟨?_, ?_, ?_, ?_, ?_⟩
  · simp [FileExtensionFilterMode.should_copy]
  · simp [FileExtensionFilterMode.should_copy]
  · intro h hd
    have hd' : '.' ∉ name.data := hd
    rw [file_extension_nosep name h]
    by_cases h3 : name.data = ['.', '.']
    · exact absurd (h3.symm ▸ List.mem_cons_self '.' ['.']) hd'
    rw [if_neg h3]
    cases hl : name.data with
    | nil => rfl
    | cons c rest =>
      have hnr : ¬('.' ∈ rest) := fun hm => hd' (hl ▸ List.mem_cons_of_mem c hm)
      simp [hnr]
  · intro rest h hl hnr
    have hl' : name.data = '.' :: rest := hl
    rw [file_extension_nosep name h]
    have h3 : name.data ≠ ['.', '.'] := by
      rw [hl']
      intro he
      have htl : rest = ['.'] := by injection he
      exact hnr (htl.symm ▸ List.mem_cons_self '.' [])
    rw [if_neg h3, hl']
    simp [hnr]
  · intro c rest h hl hdot h3
    have hl' : name.data = c :: rest := hl
    have h3' : name.data ≠ ['.', '.'] := h3
    rw [file_extension_nosep name h, if_neg h3', hl']
    simp [hdot]

/-- C3, witness for the amended theorem: the leading-dot-only case at the
concrete name ".gitignore". -/
theorem c3_witness : file_extension ".gitignore" = "" :=
  (c3_extension_filter_semantics [] ".gitignore").2.2.2.1 "gitignore".toList
    (by decide) (by decide) (by decide)

/-- C4.  For every directory path, an `Excluding(S)` folder filter copies
iff no non-empty '/'-delimited segment of the path equals (string equality)
a name in S, and an `Including(S)` filter copies iff some segment does. -/
theorem c4_folder_filter_segment_semantics (S : List String) (p : String) :
    (FolderFilterMode.should_copy (.Ignored S) (.utf8 p) = true ↔
      ∀ seg ∈ pathSegments p.toList, String.mk seg ∉ S) ∧
    (FolderFilterMode.should_copy (.Targeted S) (.utf8 p) = true ↔
      ∃ seg ∈ pathSegments p.toList, String.mk seg ∈ S) := by
  have key : (S.any (fun n => path_contains_folder (.utf8 p) n) = true) ↔
      ∃ seg ∈ pathSegments p.toList, String.mk seg ∈ S := by
    simp only [List.any_eq_true, path_contains_folder, RustPath.toStr,
      path_contains_folder_core]
    constructor
    · rintro ⟨n, hnS, hcont⟩
      have hm : n.toList ∈ pathSegments p.toList := by simpa using hcont
      exact ⟨n.toList, hm, hnS⟩
    · rintro ⟨seg, hseg, hS⟩
      refine ⟨String.mk seg, hS, ?_⟩
      show (pathSegments p.toList).contains seg = true
      simpa using hseg
  constructor
  · have h1 : (FolderFilterMode.should_copy (.Ignored S) (.utf8 p) = true) ↔
        ¬(S.any (fun n => path_contains_folder (.utf8 p) n) = true) := by
      simp [FolderFilterMode.should_copy]
    rw [h1, key]
    simp
  · have h2 : (FolderFilterMode.should_copy (.Targeted S) (.utf8 p) = true) ↔
        S.any (fun n => path_contains_folder (.utf8 p) n) = true := Iff.rfl
    rw [h2, key]

/-- C4, witness: a concrete path with segment "bin" targeted. -/
theorem c4_witness :
    FolderFilterMode.should_copy (.Targeted ["bin"]) (.utf8 "a/bin/c") = true :=
  (c4_folder_filter_segment_semantics ["bin"] "a/bin/c").2.mpr
    ⟨"bin".toList, by decide, by decide⟩

/-- C5.  The folder filter splits the WHOLE path string, including the part
above the configured source root: with source root "home/bin/data" (which
has a segment "bin") and the Excluding set {"bin"}, every directory under
that root — every path of the form "home/bin/data/" ++ suffix — is excluded,
even when no segment of the suffix (the part below the root) is in the set. -/
theorem c5_source_root_segment_excludes_all_descendants (suffix : List Char)
    (hbelow : path_contains_folder_core suffix "bin" = false) :
    path_contains_folder (.utf8 "home/bin/data") "bin" = true ∧
    FolderFilterMode.should_copy (.Ignored ["bin"])
      (.utf8 (String.mk ("home/bin/data".toList ++ '/' :: suffix))) = false := by
  refine ⟨by decide, ?_⟩
  have hseg : pathSegments ("home/bin/data".toList ++ '/' :: suffix) =
      pathSegments "home/bin/data".toList ++ pathSegments suffix := by
    unfold pathSegments
    rw [splitSep_append, List.filter_append]
  have hcont : path_contains_folder_core
      ("home/bin/data".toList ++ '/' :: suffix) "bin" = true := by
    unfold path_contains_folder_core
    rw [hseg]
    have hmem : "bin".toList ∈ pathSegments "home/bin/data".toList := by decide
    simpa using List.mem_append_left (pathSegments suffix) hmem
  have hpc : path_contains_folder
      (.utf8 (String.mk ("home/bin/data".toList ++ '/' :: suffix))) "bin" = true := hcont
  have hany : (["bin"].any (fun ign => path_contains_folder
      (.utf8 (String.mk ("home/bin/data".toList ++ '/' :: suffix))) ign)) = true := by
    show (path_contains_folder
      (.utf8 (String.mk ("home/bin/data".toList ++ '/' :: suffix))) "bin" || false) = true
    rw [hpc]
    rfl
  show (!(["bin"].any (fun ign => path_contains_folder
      (.utf8 (String.mk ("home/bin/data".toList ++ '/' :: suffix))) ign))) = false
  rw [hany]
  rfl

/-- C5, witness at the concrete subdirectory "photos", none of whose own
segments match the set. -/
theorem c5_witness :
    FolderFilterMode.should_copy (.Ignored ["bin"])
      (.utf8 (String.mk ("home/bin/data".toList ++ '/' :: "photos".toList))) = false :=
  (c5_source_root_segment_excludes_all_descendants "photos".toList (by decide)).2

/-- C6.  For every source path that strips against the source root (i.e. is
the root or a descendant of it), the mapping returns exactly the target root
joined with the stripped relative remainder; on the repository's own test
vector the result renders as "tar/bin2/path". -/
theorem c6_root_rebasing (sr tr sp : String) (rel : List String)
    (h : stripComponents (rustComponents sr) (rustComponents sp) = some rel) :
    transform_source_to_target_path sr tr sp = some (rustComponents tr ++ rel) ∧
    transform_source_to_target_path "test/bin" "tar/bin2" "test/bin/path" =
      some ["tar", "bin2", "path"] ∧
    renderPath ["tar", "bin2", "path"] = "tar/bin2/path" := by
  refine ⟨?_, by decide, by decide⟩
  unfold transform_source_to_target_path
  rw [h]

/-- C6, witness at a concrete descendant path. -/
theorem c6_witness :
    transform_source_to_target_path "test/bin" "tar/bin2" "test/bin/sub/a.txt" =
      some (rustComponents "tar/bin2" ++ ["sub", "a.txt"]) :=
  (c6_root_rebasing "test/bin" "tar/bin2" "test/bin/sub/a.txt" ["sub", "a.txt"]
    (by decide)).1

/-- C7.  With no filter configured, `convert` produces `Ignored ∅` for both
the extension and the folder dimension; an empty `Ignored` (Excluding) set
makes `should_copy` true for every entry, and an empty `Targeted`
(Including) set makes it false for every entry. -/
theorem c7_empty_filters (cli : CliArgs)
    (hext : cli.file_extensions = none) (hfold : cli.folders = none) :
    (cli.convert.file_extensions = FileExtensionFilterMode.Ignored [] ∧
     cli.convert.folders = FolderFilterMode.Ignored []) ∧
    (∀ file_name, FileExtensionFilterMode.should_copy (.Ignored []) file_name = true) ∧
    (∀ p : RustPath, FolderFilterMode.should_copy (.Ignored []) p = true) ∧
    (∀ file_name, FileExtensionFilterMode.should_copy (.Targeted []) file_name = false) ∧
    (∀ p : RustPath, FolderFilterMode.should_copy (.Targeted []) p = false) := by
  refine ⟨⟨?_, ?_⟩, fun n => rfl, fun p => rfl, fun n => rfl, fun p => rfl⟩
  · simp [CliArgs.convert, hext]
  · simp [CliArgs.convert, hfold]

/-- C7, witness: the conversion of a concrete filterless CLI invocation. -/
theorem c7_witness :
    (CliArgs.mk "src" "tgt" none none false).convert.file_extensions =
      FileExtensionFilterMode.Ignored [] ∧
    (CliArgs.mk "src" "tgt" none none false).convert.folders =
      FolderFilterMode.Ignored [] :=
  (c7_empty_filters (CliArgs.mk "src" "tgt" none none false) rfl rfl).1

/-- C8.  Extension-token normalization at configuration-build time
(inside `CliArgs::convert`) prefixes a leading '.' to every token lacking
one, leaves "jpg" and ".jpg" with the same stored value, is idempotent
(every normalized token starts with '.', and a token starting with '.' is
returned unchanged), and is exactly the map `convert` applies to a supplied
extension list. -/
theorem c8_extension_normalization (s : String) :
    ((normalizeExtension s).toList.head? = some '.') ∧
    (s.toList.head? ≠ some '.' → normalizeExtension s = "." ++ s) ∧
    (normalizeExtension "jpg" = normalizeExtension ".jpg") ∧
    (normalizeExtension (normalizeExtension s) = normalizeExtension s) ∧
    (∀ vals src tgt fold fl,
      (CliArgs.mk src tgt (some ⟨TargetMode.Ignore, vals⟩) fold fl).convert.file_extensions =
        FileExtensionFilterMode.Ignored (vals.map normalizeExtension)) := by
  have hhead : (normalizeExtension s).toList.head? = some '.' := by
    unfold normalizeExtension
    by_cases h : s.toList.head? = some '.'
    · rw [if_pos h]
      exact h
    · rw [if_neg h]
      show ("." ++ s).data.head? = some '.'
      rw [String.data_append]
      rfl
  refine ⟨hhead, ?_, by decide, ?_, ?_⟩
  · intro h
    unfold normalizeExtension
    rw [if_neg h]
  · have key : ∀ t : String, t.toList.head? = some '.' → normalizeExtension t = t := by
      intro t ht
      unfold normalizeExtension
      rw [if_pos ht]
    exact key _ hhead
  · intro vals src tgt fold fl
    simp [CliArgs.convert]

/-- C8, witness: normalizing the bare concrete token "jpg". -/
theorem c8_witness : normalizeExtension "jpg" = "." ++ "jpg" :=
  (c8_extension_normalization "jpg").2.1 (by decide)

/-- C9, counterexample.  The claim says an entry whose file name cannot be
determined is excluded (should_copy false) "for directories as well as for
files".  The root path "/" has no determinable file name, yet as a
directory under an `Ignored {"bin"}` (Excluding) folder filter the code
returns true — the directory branch never consults the file name, and an
Excluding filter includes a path string with no matching segment. -/
theorem c9_counterexample :
    rustFileName "/" = none ∧
    Arguments.should_copy
      { source_root_file_path := "src", target_root_file_path := "tgt",
        file_extensions := .Ignored [], folders := .Ignored ["bin"],
        follow_links := false }
      true (.utf8 "/") = true := by
  refine ⟨by decide, by decide⟩

/-- C9, amended.  The fail-closed rule holds for the file branch only: for
every non-directory path whose `file_name().and_then(to_str)` is `None`
(undeterminable or not valid unicode), `should_copy` returns false; for
directories the file name is never consulted — `should_copy` delegates to
the folder filter on the whole path, whatever the file name is. -/
theorem c9_fail_closed_for_files_only (args : Arguments) (p : RustPath)
    (h : p.fileNameStr = none) :
    args.should_copy false p = false ∧
    (∀ q : RustPath, args.should_copy true q = args.folders.should_copy q) := by
  constructor
  · simp [Arguments.should_copy, h]
  · intro q
    rfl

/-- C9, witness: the file branch at the concrete path "/". -/
theorem c9_witness :
    argsSrcTgt.should_copy false (.utf8 "/") = false :=
  (c9_fail_closed_for_files_only argsSrcTgt (.utf8 "/") (by decide)).1

/-- C10.  The progress counter ends equal to the number of candidates
whenever the batch completes, and each processed candidate contributes
exactly one increment whether its `fs::copy` succeeded (`b = true`) or
failed (`b = false`). -/
theorem c10_one_increment_per_candidate (args : Arguments) (fs : Fs) :
    (∀ (files : List String) (c : Nat),
      copyBatch args fs files = some c → c = files.length) ∧
    (∀ (f : String) (files : List String) (b : Bool),
      copyStepLib args fs f = some b →
      copyBatch args fs (f :: files) = (copyBatch args fs files).map (· + 1)) := by
  constructor
  · intro files
    induction files with
    | nil =>
      intro c hc
      simpa [copyBatch] using hc.symm
    | cons f rest ih =>
      intro c hc
      unfold copyBatch at hc
      cases hstep : copyStepLib args fs f with
      | none => rw [hstep] at hc; cases hc
      | some b =>
        rw [hstep] at hc
        obtain ⟨d, hd, hdc⟩ := Option.map_eq_some'.mp hc
        rw [List.length_cons, ← ih d hd, ← hdc]
  · intro f files b hstep
    show (match copyStepLib args fs f with
      | none => none
      | some _ => (copyBatch args fs files).map (· + 1)) =
      (copyBatch args fs files).map (· + 1)
    rw [hstep]

/-- C10, witness: a concrete two-candidate batch on which every `fs::copy`
fails still counts both candidates. -/
theorem c10_witness :
    copyBatch argsSrcTgt fsCopyFails ["src/a.txt", "src/b.txt"] =
      some (["src/a.txt", "src/b.txt"] : List String).length := by
  have h : copyBatch argsSrcTgt fsCopyFails ["src/a.txt", "src/b.txt"] = some 2 := by
    decide
  have hlen := (c10_one_increment_per_candidate argsSrcTgt fsCopyFails).1
    ["src/a.txt", "src/b.txt"] 2 h
  exact hlen ▸ h
